import Mathlib

set_option maxRecDepth 200000

/-!
Verification of the sparse Game-of-Life board in `life.py`.

The board is a Python `dict` mapping row numbers to sets of live column
indices, together with a row count `height` and the tracked horizontal
bounds `min_max` (the source stores the leftmost live column under the
key `"max"` and the rightmost under `"min"`).

The dict is embedded as an insertion-ordered association list, which is
how CPython dicts behave observably (3.7+).  Python raises `KeyError` on
a missing-key subscript, so every subscript is embedded in `Except`.
Python assigns set objects by reference during the row shifts, but a set
aliased only by a stale key (a key at or above `height`) is never read
before the key is rebound, so value semantics is observationally
faithful.  The four `while` loops of `resize_board` are embedded with a
fuel parameter; each loop's iteration count is bounded by the board size
and the fuel supplied is generous, so fuel exhaustion is unreachable on
the inputs evaluated here.
-/

namespace Life

/-- EDGE_BUF_SIZE = 2 (life.py line 28). -/
def EDGE_BUF_SIZE : ℤ := 2

/-- int(sys.float_info.max): the largest IEEE double is (2 - 2^-52)·2^1023
= 2^1024 - 2^971 exactly, used as the bound sentinel (lines 57-58); the
value is written as a literal so that it reduces without deep recursion. -/
def FLOAT_INFO_MAX_INT : ℤ := 179769313486231570814527423731704356798070567525844996598917476803157260780028538760589558632766878171540458953514382464234321326889464182768467546703537516986049910576551282076245490090389328944075868508455133942304583236903222948165808559332123348274797826204144723168738177180919299881250404026184124858368

/-- Python exceptions that the embedded operations can raise, plus a fuel
marker for the while-loop embedding. -/
inductive PyErr where
  | keyError (k : ℤ)
  | valueError
  | outOfRange (k : ℤ)
  | fuel
deriving DecidableEq

instance {ε α : Type} [DecidableEq ε] [DecidableEq α] : DecidableEq (Except ε α) := fun a b =>
  match a, b with
  | .error e, .error e' =>
    if h : e = e' then isTrue (congrArg Except.error h)
    else isFalse (fun hh => h (Except.error.inj hh))
  | .ok x, .ok y =>
    if h : x = y then isTrue (congrArg Except.ok h)
    else isFalse (fun hh => h (Except.ok.inj hh))
  | .error _, .ok _ => isFalse (fun hh => Except.noConfusion hh)
  | .ok _, .error _ => isFalse (fun hh => Except.noConfusion hh)

/-- A row's set of live columns. -/
abbrev Row := Finset ℤ

/-- The board dictionary: insertion-ordered association list from row
number to live-column set, mirroring a CPython dict. -/
abbrev Dict := List (ℤ × Row)

/-- Lookup: the value stored under key `k`, if present. -/
def dictGet : Dict → ℤ → Option Row
  | [], _ => none
  | (k', v) :: d, k => if k' = k then some v else dictGet d k

/-- `d[k] = v`: replace the value in place when the key exists, otherwise
append the new key at the end (CPython insertion order). -/
def dictSet : Dict → ℤ → Row → Dict
  | [], k, v => [(k, v)]
  | (k', v') :: d, k, v => if k' = k then (k, v) :: d else (k', v') :: dictSet d k v

/-- `d.pop(k)`: remove the entry, raising KeyError when the key is absent. -/
def dictPop : Dict → ℤ → Except PyErr Dict
  | [], k => .error (.keyError k)
  | (k', v') :: d, k =>
    if k' = k then .ok d else (dictPop d k).map (fun d2 => (k', v') :: d2)

/-- The key list of the dict, in insertion order. -/
def dictKeys (d : Dict) : List ℤ := d.map Prod.fst

/-- `self[k]` as an expression: raises KeyError when `k` is not a key. -/
def rowSet (d : Dict) (k : ℤ) : Except PyErr Row :=
  match dictGet d k with
  | some s => .ok s
  | none => .error (.keyError k)

/-- The `min_max` bound pair.  Mirroring the source's naming, `max` holds
the LEFTmost (minimum) live column and `min` the rightmost (maximum). -/
structure MinMax where
  max : ℤ
  min : ℤ
deriving DecidableEq

/-- The LifeBoard state: the underlying dict, `self.height`, and
`self.min_max`. -/
structure LifeBoard where
  board : Dict
  height : ℤ
  min_max : MinMax
deriving DecidableEq

/-- `range(a, b)` over the integers. -/
def intRange (a b : ℤ) : List ℤ :=
  (List.range (b - a).toNat).map (fun i => a + Int.ofNat i)

/-- The inner `for cell in row` scan of `__init__` (lines 68-72): update
the running bounds from one row's cells.  Python set iteration order is
unspecified, but accumulating `if cell < max then cell` / `if cell > min
then cell` over all cells is order-independent and equals the comparison
against the row's least and greatest element, which is how the loop is
embedded here. -/
def scanRow (mm : MinMax) (s : Row) : MinMax :=
  if h : s.Nonempty then
    ⟨if s.min' h < mm.max then s.min' h else mm.max,
     if s.max' h > mm.min then s.max' h else mm.min⟩
  else mm

/-- The tail of `__init__` (lines 65-72): recount `height` as the number
of rows and seed `min_max` by scanning every live cell once. -/
def finalize (d : Dict) : LifeBoard :=
  let hm := d.foldl (fun acc kv => ((acc.1 + 1 : ℤ), scanRow acc.2 kv.2))
    ((0 : ℤ), (⟨FLOAT_INFO_MAX_INT, -FLOAT_INFO_MAX_INT⟩ : MinMax))
  ⟨d, hm.1, hm.2⟩

/-- `LifeBoard(start_height=h)` (lines 50-72): a dict with one empty set
per row in `range(h)`, then the recount/rescan. -/
def create (h : ℤ) : LifeBoard :=
  finalize ((intRange 0 h).map (fun n => (n, (∅ : Row))))

/-- A value stored in a pickle file: either a Python dict (row to set of
columns) or a str.  A pickled dict has unique keys by construction. -/
inductive PValue where
  | mapping (m : Dict)
  | str (s : String)

/-- `dict.__init__(x)` for the two pickled shapes: a mapping is copied;
a str is treated as an update sequence whose elements are its characters,
so every nonempty str raises ValueError (an element of length 1 is not a
key/value pair), and the empty str yields an empty dict. -/
def dictOfPValue : PValue → Except PyErr Dict
  | .mapping m => .ok m
  | .str s => if s = "" then .ok [] else .error .valueError

/-- `LifeBoard(source_file=f)` when `f` exists and unpickles to `v`
(lines 59-72). -/
def load (v : PValue) : Except PyErr LifeBoard :=
  match dictOfPValue v with
  | .error e => .error e
  | .ok d => .ok (finalize d)

/-- Python str() of an int. -/
def pyIntStr (n : ℤ) : String := toString n

/-- The elements of a row in ascending order, extracted by repeatedly
removing the least element; the fuel equals the card, so the recursion is
structural and fully reducible. -/
def ascListFuel : ℕ → Row → List ℤ
  | 0, _ => []
  | n + 1, s =>
    if h : s.Nonempty then s.min' h :: ascListFuel n (s.erase (s.min' h)) else []

/-- The elements of a row in ascending order. -/
def ascList (s : Row) : List ℤ := ascListFuel s.card s

/-- Python str() of a set of ints: "set()" when empty, otherwise the
elements between braces.  Iteration order is unspecified in Python; the
model prints in ascending order. -/
def pySetStr (s : Row) : String :=
  if s = ∅ then "set()"
  else "\x7b" ++ String.intercalate ", " ((ascList s).map pyIntStr) ++ "\x7d"

/-- `__repr__` (line 79): `str(dict(self))`, a brace-delimited rendering
of the underlying dict. -/
def reprBoard (b : LifeBoard) : String :=
  "\x7b"
    ++ String.intercalate ", "
      (b.board.map (fun kv => pyIntStr kv.1 ++ ": " ++ pySetStr kv.2))
    ++ "\x7d"

/-- Menu option 6 (lines 266-270): `pickle.dump(repr(board), fout)` — the
pickled value is the repr STRING, not the dict. -/
def save (b : LifeBoard) : PValue := .str (reprBoard b)

/-- The two-character live glyph (line 47). -/
def live_cell : String := " *"

/-- The two-character dead glyph (line 48). -/
def dead_cell : String := "  "

/-- One board line of `__str__` (lines 85-91): the columns from
`min_max["max"] - EDGE_BUF_SIZE` up to `min_max["min"] + EDGE_BUF_SIZE`
(exclusive), each rendered by membership in `self[row_num]`. -/
def renderRow (d : Dict) (mm : MinMax) (r : ℤ) : Except PyErr String :=
  match rowSet d r with
  | .error e => .error e
  | .ok s =>
    .ok ((intRange (mm.max - EDGE_BUF_SIZE) (mm.min + EDGE_BUF_SIZE)).foldl
      (fun acc c => acc ++ (if c ∈ s then live_cell else dead_cell)) "")

/-- The list of board lines `__str__` produces (lines 84-91), one per row
in `range(height)`; the summary line is separate. -/
def renderLines (b : LifeBoard) : Except PyErr (List String) :=
  (intRange 0 b.height).mapM (fun r => renderRow b.board b.min_max r)

/-- Total liveness used to STATE properties: a missing row holds no live
cells. -/
def liveB (d : Dict) (r c : ℤ) : Bool :=
  match dictGet d r with
  | some s => decide (c ∈ s)
  | none => false

/-- Total 8-neighbour count used to STATE properties, in the source's
summand order (lines 136-143). -/
def nbrCount (d : Dict) (r c : ℤ) : ℕ :=
  (if liveB d (r - 1) (c - 1) then 1 else 0)
    + (if liveB d (r - 1) c then 1 else 0)
    + (if liveB d (r - 1) (c + 1) then 1 else 0)
    + (if liveB d r (c - 1) then 1 else 0)
    + (if liveB d r (c + 1) then 1 else 0)
    + (if liveB d (r + 1) (c - 1) then 1 else 0)
    + (if liveB d (r + 1) c then 1 else 0)
    + (if liveB d (r + 1) (c + 1) then 1 else 0)

/-- `neighbor_ct` (lines 136-143): membership tests against the rows
`row_num - 1`, `row_num`, `row_num + 1`, whose subscripts raise KeyError
on a missing row (first at `row_num - 1`, matching source order). -/
def neighborCt (d : Dict) (r c : ℤ) : Except PyErr ℕ :=
  match rowSet d (r - 1) with
  | .error e => .error e
  | .ok above =>
    match rowSet d r with
    | .error e => .error e
    | .ok middle =>
      match rowSet d (r + 1) with
      | .error e => .error e
      | .ok below =>
        .ok ((if (c - 1) ∈ above then 1 else 0)
          + (if c ∈ above then 1 else 0)
          + (if (c + 1) ∈ above then 1 else 0)
          + (if (c - 1) ∈ middle then 1 else 0)
          + (if (c + 1) ∈ middle then 1 else 0)
          + (if (c - 1) ∈ below then 1 else 0)
          + (if c ∈ below then 1 else 0)
          + (if (c + 1) ∈ below then 1 else 0))

/-- A delta `(row, column, becomes_alive)` (lines 145, 148). -/
abbrev Delta := ℤ × ℤ × Bool

/-- The per-cell rule body (lines 136-148): the birth/death delta this
cell contributes, if any. -/
def cellDelta (d : Dict) (r c : ℤ) : Except PyErr (Option Delta) :=
  match neighborCt d r c with
  | .error e => .error e
  | .ok ct =>
    match rowSet d r with
    | .error e => .error e
    | .ok cur =>
      if c ∉ cur ∧ ct = 3 then .ok (some (r, c, true))
      else if c ∈ cur ∧ ¬(ct = 2 ∨ ct = 3) then .ok (some (r, c, false))
      else .ok none

/-- The total counterpart of `cellDelta`, used to state properties. -/
def pureCellDelta (d : Dict) (r c : ℤ) : Option Delta :=
  if liveB d r c = false ∧ nbrCount d r c = 3 then some (r, c, true)
  else if liveB d r c = true ∧ ¬(nbrCount d r c = 2 ∨ nbrCount d r c = 3) then
    some (r, c, false)
  else none

/-- The inner column loop of the evaluation phase (lines 134-148). -/
def rowDeltas (d : Dict) (r : ℤ) : List ℤ → Except PyErr (List Delta)
  | [] => .ok []
  | c :: cs =>
    match cellDelta d r c with
    | .error e => .error e
    | .ok od =>
      match rowDeltas d r cs with
      | .error e => .error e
      | .ok rest => .ok (od.toList ++ rest)

/-- The outer row loop of the evaluation phase (lines 133-148). -/
def rowsDeltas (d : Dict) (cols : List ℤ) : List ℤ → Except PyErr (List Delta)
  | [] => .ok []
  | r :: rs =>
    match rowDeltas d r cols with
    | .error e => .error e
    | .ok ds =>
      match rowsDeltas d cols rs with
      | .error e => .error e
      | .ok rest => .ok (ds ++ rest)

/-- The evaluation phase of `compute_next_generation` (lines 132-148):
rows `range(1, height - 1)`, columns
`range(min_max["max"] - 1, min_max["min"] + 2)`. -/
def computeDeltas (b : LifeBoard) : Except PyErr (List Delta) :=
  rowsDeltas b.board
    (intRange (b.min_max.max - 1) (b.min_max.min + 2))
    (intRange 1 (b.height - 1))

/-- Apply one delta (lines 149-160): mutate the row's set (a remove of an
absent member raises KeyError which the handler swallows, leaving the set
unchanged; a missing ROW key escapes, because the handler's own subscript
re-raises), then update `min_max` from the delta — comparing the ROW
index against `min_max["max"]` and the COLUMN against `min_max["min"]`,
for every delta. -/
def applyDelta (st : Dict × MinMax) (dl : Delta) : Except PyErr (Dict × MinMax) :=
  match rowSet st.1 dl.1 with
  | .error e => .error e
  | .ok s =>
    let s2 := if dl.2.2 then insert dl.2.1 s else s.erase dl.2.1
    .ok (dictSet st.1 dl.1 s2,
      ⟨if dl.1 < st.2.max then dl.1 else st.2.max,
       if dl.2.1 > st.2.min then dl.2.1 else st.2.min⟩)

/-- The apply phase of `compute_next_generation` (lines 149-160), over the
deltas in production order. -/
def applyDeltas : List Delta → Dict × MinMax → Except PyErr (Dict × MinMax)
  | [], st => .ok st
  | dl :: ds, st =>
    match applyDelta st dl with
    | .error e => .error e
    | .ok st2 => applyDeltas ds st2

/-- `any(self[n] for n in idxs)`: short-circuiting truthiness over raising
subscripts. -/
def anyLive (d : Dict) : List ℤ → Except PyErr Bool
  | [] => .ok false
  | k :: ks =>
    match rowSet d k with
    | .error e => .error e
    | .ok s => if s = ∅ then anyLive d ks else .ok true

/-- The expand-top shift (lines 108-109):
`for row_num in ks: self[row_num] = self[row_num - 1]`. -/
def shiftUp : Dict → List ℤ → Except PyErr Dict
  | d, [] => .ok d
  | d, k :: ks =>
    match rowSet d (k - 1) with
    | .error e => .error e
    | .ok s => shiftUp (dictSet d k s) ks

/-- The shrink-top shift (lines 118-119):
`for row_num in ks: self[row_num - 1] = self[row_num]`. -/
def shiftDown : Dict → List ℤ → Except PyErr Dict
  | d, [] => .ok d
  | d, k :: ks =>
    match rowSet d k with
    | .error e => .error e
    | .ok s => shiftDown (dictSet d (k - 1) s) ks

/-- The expand-top loop (lines 107-111): while a top-buffer row is live,
shift every row up one index (descending `range(height, 0, -1)`), set row
0 empty and grow `height`. -/
def expandTop : ℕ → Dict → ℤ → Except PyErr (Dict × ℤ)
  | 0, _, _ => .error .fuel
  | fu + 1, d, h =>
    match anyLive d (intRange 0 EDGE_BUF_SIZE) with
    | .error e => .error e
    | .ok true =>
      match shiftUp d (intRange 1 (h + 1)).reverse with
      | .error e => .error e
      | .ok d1 => expandTop fu (dictSet d1 0 ∅) (h + 1)
    | .ok false => .ok (d, h)

/-- The expand-bottom loop (lines 112-114): while one of the last
EDGE_BUF_SIZE rows is live, append an empty row and grow `height`. -/
def expandBottom : ℕ → Dict → ℤ → Except PyErr (Dict × ℤ)
  | 0, _, _ => .error .fuel
  | fu + 1, d, h =>
    match anyLive d ((intRange 1 (EDGE_BUF_SIZE + 1)).map (fun n => h - n)) with
    | .error e => .error e
    | .ok true => expandBottom fu (dictSet d h ∅) (h + 1)
    | .ok false => .ok (d, h)

/-- The shrink-top loop (lines 116-120): while `self[EDGE_BUF_SIZE]` is
empty, pop key 0, shift every row in `range(1, height)` down one index
and shrink `height`.  (The shift rewrites keys `0..height-2` but leaves
key `height-1` behind as a stale key.) -/
def shrinkTop : ℕ → Dict → ℤ → Except PyErr (Dict × ℤ)
  | 0, _, _ => .error .fuel
  | fu + 1, d, h =>
    match rowSet d EDGE_BUF_SIZE with
    | .error e => .error e
    | .ok s =>
      if s = ∅ then
        match dictPop d 0 with
        | .error e => .error e
        | .ok d1 =>
          match shiftDown d1 (intRange 1 h) with
          | .error e => .error e
          | .ok d2 => shrinkTop fu d2 (h - 1)
      else .ok (d, h)

/-- The shrink-bottom loop (lines 121-123): while
`self[height - EDGE_BUF_SIZE + 1]` — which is `self[height - 1]`, the
LAST row — is empty, pop key `height - 1` and shrink `height`. -/
def shrinkBottom : ℕ → Dict → ℤ → Except PyErr (Dict × ℤ)
  | 0, _, _ => .error .fuel
  | fu + 1, d, h =>
    match rowSet d (h - EDGE_BUF_SIZE + 1) with
    | .error e => .error e
    | .ok s =>
      if s = ∅ then
        match dictPop d (h - 1) with
        | .error e => .error e
        | .ok d1 => shrinkBottom fu d1 (h - 1)
      else .ok (d, h)

/-- Fuel for one resize loop: generous relative to the loop bounds (the
expand loops run at most EDGE_BUF_SIZE+1 times, the shrink loops at most
`height` plus the number of keys times). -/
def resizeFuel (d : Dict) (h : ℤ) : ℕ := d.length + h.toNat + 8

/-- `resize_board` (lines 98-123): expand top, expand bottom, then shrink
top, shrink bottom.  Operates on the dict and `height` only; `min_max` is
never touched. -/
def resize_board (d : Dict) (h : ℤ) : Except PyErr (Dict × ℤ) :=
  match expandTop (resizeFuel d h) d h with
  | .error e => .error e
  | .ok (d1, h1) =>
    match expandBottom (resizeFuel d1 h1) d1 h1 with
    | .error e => .error e
    | .ok (d2, h2) =>
      match shrinkTop (resizeFuel d2 h2) d2 h2 with
      | .error e => .error e
      | .ok (d3, h3) => shrinkBottom (resizeFuel d3 h3) d3 h3

/-- `compute_next_generation` (lines 126-161): evaluate all deltas from a
read-only snapshot, apply them with the incremental bound updates, then
resize unconditionally. -/
def compute_next_generation (b : LifeBoard) : Except PyErr LifeBoard :=
  match computeDeltas b with
  | .error e => .error e
  | .ok ds =>
    match applyDeltas ds (b.board, b.min_max) with
    | .error e => .error e
    | .ok (d2, mm2) =>
      match resize_board d2 b.height with
      | .error e => .error e
      | .ok (d3, h3) => .ok ⟨d3, h3, mm2⟩

/-- Modelled from the spec: `toggle(row, col, alive)` (spec §4.1) — the
source has no toggle method; per the spec it adds or removes `col` from
`row`'s set and does not itself update bounds, and row access follows the
`row(i)` contract, failing for `i` outside `[0, height)`. -/
def toggle (b : LifeBoard) (r c : ℤ) (alive : Bool) : Except PyErr LifeBoard :=
  if 0 ≤ r ∧ r < b.height then
    match dictGet b.board r with
    | some s =>
      .ok ⟨dictSet b.board r (if alive then insert c s else s.erase c),
        b.height, b.min_max⟩
    | none => .error (.keyError r)
  else .error (.outOfRange r)

/-- A sequence of toggles applied left to right. -/
def applyToggles : List (ℤ × ℤ × Bool) → LifeBoard → Except PyErr LifeBoard
  | [], b => .ok b
  | (r, c, a) :: ops, b =>
    match toggle b r c a with
    | .error e => .error e
    | .ok b2 => applyToggles ops b2

/-- Decidable form of "every live cell is at least EDGE_BUF_SIZE + 1 rows
from row 0 and from row height - 1". -/
def liveConfined (b : LifeBoard) : Bool :=
  b.board.all (fun kv =>
    kv.2 = ∅ ∨ (EDGE_BUF_SIZE + 1 ≤ kv.1 ∧ kv.1 ≤ b.height - EDGE_BUF_SIZE - 2))

/-- The bound update as claim C8 words it: folded over only the BIRTH
deltas (clearly named spec-side definition, for comparison with the
source-side `applyDeltas`). -/
def specBirthBounds (ds : List Delta) (mm : MinMax) : MinMax :=
  ds.foldl
    (fun acc dl =>
      if dl.2.2 then
        ⟨if dl.1 < acc.max then dl.1 else acc.max,
         if dl.2.1 > acc.min then dl.2.1 else acc.min⟩
      else acc) mm

/-! ### Concrete boards used to settle individual claims -/

/-- A height-5 board whose only live cell is at row 2, column 0, as the
constructor seeds it. -/
def c5Board : LifeBoard :=
  finalize [(0, ∅), (1, ∅), (2, {0}), (3, ∅), (4, ∅)]

/-- A height-9 board holding a stable 2×2 block in rows 3-4, columns 0-1,
three rows clear of both edges. -/
def blockB : LifeBoard :=
  finalize [(0, ∅), (1, ∅), (2, ∅), (3, {0, 1}), (4, {0, 1}),
    (5, ∅), (6, ∅), (7, ∅), (8, ∅)]

/-- The board `compute_next_generation` produces from `blockB`: the block
moved up to rows 2-3, height 4, and a stale key 8 left by the shrink-top
shift. -/
def blockOutB : LifeBoard :=
  ⟨[(1, ∅), (2, {0, 1}), (3, {0, 1}), (8, ∅), (0, ∅)], 4, ⟨0, 1⟩⟩

/-- A height-7 dict whose only live cell is at row 2, column 0: two empty
rows above the live row and four empty rows below it. -/
def c1Dict : Dict := [(0, ∅), (1, ∅), (2, {0}), (3, ∅), (4, ∅), (5, ∅), (6, ∅)]

/-- A persisted mapping with a gap in its row keys: keys 0 and 2 only. -/
def gapped : Dict := [(0, ∅), (2, {5})]

/-- A height-5 board whose only live cell is at row 2, column 10, so the
left and right bound are both 10. -/
def c8Board : LifeBoard :=
  finalize [(0, ∅), (1, ∅), (2, {10}), (3, ∅), (4, ∅)]

/-- The dict of `c8Board` after its lone cell dies. -/
def c8AfterDict : Dict := [(0, ∅), (1, ∅), (2, ∅), (3, ∅), (4, ∅)]

/-- The board reached from `create 5` by `toggle(1, 1, alive := true)`. -/
def c3b : LifeBoard :=
  ⟨[(0, ∅), (1, {1}), (2, ∅), (3, ∅), (4, ∅)], 5,
    ⟨FLOAT_INFO_MAX_INT, -FLOAT_INFO_MAX_INT⟩⟩

/-- The board reached from `create 3` by `toggle(1, 1, alive := true)`. -/
def c4wB : LifeBoard :=
  ⟨[(0, ∅), (1, {1}), (2, ∅)], 3,
    ⟨FLOAT_INFO_MAX_INT, -FLOAT_INFO_MAX_INT⟩⟩

/-! ### Basic lemmas about the dict and range embedding -/

theorem mem_intRange {a b c : ℤ} : c ∈ intRange a b ↔ a ≤ c ∧ c < b := by
  unfold intRange
  rw [List.mem_map]
  constructor
  · rintro ⟨i, hi, rfl⟩
    rw [List.mem_range] at hi
    simp only [Int.ofNat_eq_coe]
    omega
  · intro h
    refine ⟨(c - a).toNat, by rw [List.mem_range]; omega, ?_⟩
    simp only [Int.ofNat_eq_coe]
    omega

theorem dictGet_dictSet (d : Dict) (k k' : ℤ) (v : Row) :
    dictGet (dictSet d k v) k' = if k = k' then some v else dictGet d k' := by
  induction d with
  | nil => simp [dictGet, dictSet]
  | cons kv d ih =>
    obtain ⟨k0, v0⟩ := kv
    by_cases h0 : k0 = k
    · subst h0
      simp only [dictSet, if_pos rfl, dictGet]
      by_cases h1 : k0 = k'
      · subst h1
        simp [dictGet]
      · simp [dictGet, h1]
    · simp only [dictSet, if_neg h0, dictGet]
      by_cases h1 : k0 = k'
      · subst h1
        have : ¬ k = k0 := fun hh => h0 hh.symm
        simp [this]
      · simp [h1, ih]

theorem dictGet_mem {d : Dict} {k : ℤ} {v : Row} (h : dictGet d k = some v) :
    (k, v) ∈ d := by
  induction d with
  | nil => simp [dictGet] at h
  | cons kv d ih =>
    obtain ⟨k0, v0⟩ := kv
    simp only [dictGet] at h
    split at h
    · rename_i h0
      subst h0
      injection h with h2
      subst h2
      exact List.mem_cons_self _ _
    · exact List.mem_cons_of_mem _ (ih h)

theorem dictKeys_dictSet {d : Dict} {k : ℤ} {s : Row} (v : Row)
    (h : dictGet d k = some s) : dictKeys (dictSet d k v) = dictKeys d := by
  induction d with
  | nil => simp [dictGet] at h
  | cons kv d ih =>
    obtain ⟨k0, v0⟩ := kv
    simp only [dictGet] at h
    by_cases h0 : k0 = k
    · subst h0
      simp [dictSet, dictKeys]
    · rw [if_neg h0] at h
      simp [dictSet, h0, dictKeys] at ih ⊢
      exact ih h

theorem rowSet_ok_iff {d : Dict} {k : ℤ} {s : Row} :
    rowSet d k = .ok s ↔ dictGet d k = some s := by
  unfold rowSet
  cases h : dictGet d k <;> simp

theorem liveB_true_elim {d : Dict} {r c : ℤ} (h : liveB d r c = true) :
    ∃ s, dictGet d r = some s ∧ c ∈ s := by
  unfold liveB at h
  cases hg : dictGet d r with
  | none => rw [hg] at h; simp at h
  | some s => rw [hg] at h; simp at h; exact ⟨s, rfl, h⟩

theorem finalize_height (d : Dict) : (finalize d).height = (d.length : ℤ) := by
  have key : ∀ (l : Dict) (a : ℤ × MinMax),
      (l.foldl (fun acc kv => ((acc.1 + 1 : ℤ), scanRow acc.2 kv.2)) a).1
        = a.1 + (l.length : ℤ) := by
    intro l
    induction l with
    | nil => intro a; simp
    | cons kv l ih =>
      intro a
      simp only [List.foldl_cons, ih, List.length_cons]
      push_cast
      ring
  have h0 := key d ((0 : ℤ), (⟨FLOAT_INFO_MAX_INT, -FLOAT_INFO_MAX_INT⟩ : MinMax))
  simp only [finalize]
  rw [h0]
  ring

theorem finalize_board (d : Dict) : (finalize d).board = d := rfl

theorem foldl_min_le (l : List ℤ) (a : ℤ) : l.foldl min a ≤ a := by
  induction l generalizing a with
  | nil => simp
  | cons x l ih =>
    simp only [List.foldl_cons]
    exact le_trans (ih (min a x)) (min_le_left a x)

theorem le_foldl_max (l : List ℤ) (a : ℤ) : a ≤ l.foldl max a := by
  induction l generalizing a with
  | nil => simp
  | cons x l ih =>
    simp only [List.foldl_cons]
    exact le_trans (le_max_left a x) (ih (max a x))

/-! ### Evaluation-phase lemmas -/

theorem cellDelta_ok_elim {d : Dict} {r c : ℤ} {o : Option Delta}
    (h : cellDelta d r c = .ok o) :
    ∃ a m bl, dictGet d (r - 1) = some a ∧ dictGet d r = some m ∧
      dictGet d (r + 1) = some bl := by
  unfold cellDelta neighborCt rowSet at h
  cases h1 : dictGet d (r - 1) <;> rw [h1] at h
  · simp at h
  cases h2 : dictGet d r <;> rw [h2] at h
  · simp at h
  cases h3 : dictGet d (r + 1) <;> rw [h3] at h
  · simp at h
  exact ⟨_, _, _, rfl, rfl, rfl⟩

theorem cellDelta_of_present {d : Dict} {r c : ℤ} {ab m bl : Row}
    (h1 : dictGet d (r - 1) = some ab) (h2 : dictGet d r = some m)
    (h3 : dictGet d (r + 1) = some bl) :
    cellDelta d r c = .ok (pureCellDelta d r c) := by
  unfold cellDelta neighborCt rowSet pureCellDelta nbrCount liveB
  simp only [h1, h2, h3, decide_eq_true_eq, decide_eq_false_iff_not,
    apply_ite Except.ok]

theorem pureCellDelta_some_elim {d : Dict} {r c r' c' : ℤ} {a : Bool}
    (h : pureCellDelta d r c = some (r', c', a)) :
    r' = r ∧ c' = c ∧
      ((a = true ∧ liveB d r c = false ∧ nbrCount d r c = 3) ∨
       (a = false ∧ liveB d r c = true ∧ nbrCount d r c ≠ 2 ∧
         nbrCount d r c ≠ 3)) := by
  unfold pureCellDelta at h
  split_ifs at h with h1 h2
  · injection h with h3
    cases h3
    exact ⟨rfl, rfl, Or.inl ⟨rfl, h1.1, h1.2⟩⟩
  · injection h with h3
    cases h3
    refine ⟨rfl, rfl, Or.inr ⟨rfl, h2.1, ?_, ?_⟩⟩
    · intro hh
      exact h2.2 (Or.inl hh)
    · intro hh
      exact h2.2 (Or.inr hh)

theorem pureCellDelta_birth {d : Dict} {r c : ℤ}
    (h1 : liveB d r c = false) (h2 : nbrCount d r c = 3) :
    pureCellDelta d r c = some (r, c, true) := by
  unfold pureCellDelta
  rw [if_pos ⟨h1, h2⟩]

theorem pureCellDelta_death {d : Dict} {r c : ℤ}
    (h1 : liveB d r c = true) (h2 : nbrCount d r c ≠ 2)
    (h3 : nbrCount d r c ≠ 3) :
    pureCellDelta d r c = some (r, c, false) := by
  unfold pureCellDelta
  rw [if_neg, if_pos]
  · exact ⟨h1, fun hh => hh.elim h2 h3⟩
  · intro hh
    rw [h1] at hh
    exact Bool.true_eq_false.mp hh.1

theorem rowDeltas_ok_mem {d : Dict} {r : ℤ} :
    ∀ {cols : List ℤ} {ds : List Delta}, rowDeltas d r cols = .ok ds →
      ∀ x : Delta, (x ∈ ds ↔ ∃ c ∈ cols, cellDelta d r c = .ok (some x)) := by
  intro cols
  induction cols with
  | nil =>
    intro ds h x
    unfold rowDeltas at h
    injection h with h2
    subst h2
    simp
  | cons c cs ih =>
    intro ds h x
    unfold rowDeltas at h
    cases h1 : cellDelta d r c <;> rw [h1] at h
    · simp at h
    cases h2 : rowDeltas d r cs <;> rw [h2] at h
    · simp at h
    rename_i od rest
    injection h with h3
    subst h3
    constructor
    · intro hx
      rcases List.mem_append.mp hx with hx | hx
      · have hod : od = some x := by
          cases od with
          | none => simp [Option.toList] at hx
          | some y =>
            simp [Option.toList] at hx
            rw [hx]
        exact ⟨c, List.mem_cons_self _ _, by rw [h1, hod]⟩
      · obtain ⟨c2, hc2, hcd⟩ := ((ih h2) x).mp hx
        exact ⟨c2, List.mem_cons_of_mem _ hc2, hcd⟩
    · rintro ⟨c2, hc2, hcd⟩
      rcases List.mem_cons.mp hc2 with rfl | hc2
      · rw [h1] at hcd
        injection hcd with h4
        apply List.mem_append.mpr
        left
        rw [h4]
        simp [Option.toList]
      · exact List.mem_append.mpr (Or.inr (((ih h2) x).mpr ⟨c2, hc2, hcd⟩))

theorem rowDeltas_ok_cell {d : Dict} {r : ℤ} :
    ∀ {cols : List ℤ} {ds : List Delta}, rowDeltas d r cols = .ok ds →
      ∀ {c : ℤ}, c ∈ cols → ∃ o, cellDelta d r c = .ok o := by
  intro cols
  induction cols with
  | nil =>
    intro ds _ c hc
    simp at hc
  | cons c0 cs ih =>
    intro ds h c hc
    unfold rowDeltas at h
    cases h1 : cellDelta d r c0 <;> rw [h1] at h
    · simp at h
    cases h2 : rowDeltas d r cs <;> rw [h2] at h
    · simp at h
    rcases List.mem_cons.mp hc with rfl | hc
    · exact ⟨_, h1⟩
    · exact ih h2 hc

theorem rowsDeltas_ok_row {d : Dict} {cols : List ℤ} :
    ∀ {rows : List ℤ} {ds : List Delta}, rowsDeltas d cols rows = .ok ds →
      ∀ {r : ℤ}, r ∈ rows → ∃ ds2, rowDeltas d r cols = .ok ds2 := by
  intro rows
  induction rows with
  | nil =>
    intro ds _ r hr
    simp at hr
  | cons r0 rs ih =>
    intro ds h r hr
    unfold rowsDeltas at h
    cases h1 : rowDeltas d r0 cols <;> rw [h1] at h
    · simp at h
    cases h2 : rowsDeltas d cols rs <;> rw [h2] at h
    · simp at h
    rcases List.mem_cons.mp hr with rfl | hr
    · exact ⟨_, h1⟩
    · exact ih h2 hr

theorem rowsDeltas_ok_mem {d : Dict} {cols : List ℤ} :
    ∀ {rows : List ℤ} {ds : List Delta}, rowsDeltas d cols rows = .ok ds →
      ∀ x : Delta,
        (x ∈ ds ↔ ∃ r ∈ rows, ∃ c ∈ cols, cellDelta d r c = .ok (some x)) := by
  intro rows
  induction rows with
  | nil =>
    intro ds h x
    unfold rowsDeltas at h
    injection h with h2
    subst h2
    simp
  | cons r0 rs ih =>
    intro ds h x
    unfold rowsDeltas at h
    cases h1 : rowDeltas d r0 cols <;> rw [h1] at h
    · simp at h
    cases h2 : rowsDeltas d cols rs <;> rw [h2] at h
    · simp at h
    rename_i ds0 rest
    injection h with h3
    subst h3
    constructor
    · intro hx
      rcases List.mem_append.mp hx with hx | hx
      · obtain ⟨c2, hc2, hcd⟩ := ((rowDeltas_ok_mem h1) x).mp hx
        exact ⟨r0, List.mem_cons_self _ _, c2, hc2, hcd⟩
      · obtain ⟨r2, hr2, c2, hc2, hcd⟩ := ((ih h2) x).mp hx
        exact ⟨r2, List.mem_cons_of_mem _ hr2, c2, hc2, hcd⟩
    · rintro ⟨r2, hr2, c2, hc2, hcd⟩
      rcases List.mem_cons.mp hr2 with rfl | hr2
      · exact List.mem_append.mpr
          (Or.inl (((rowDeltas_ok_mem h1) x).mpr ⟨c2, hc2, hcd⟩))
      · exact List.mem_append.mpr (Or.inr (((ih h2) x).mpr ⟨r2, hr2, c2, hc2, hcd⟩))

/-! ### Apply-phase lemmas -/

theorem applyDelta_ok_elim {d : Dict} {mm : MinMax} {dl : Delta}
    {st2 : Dict × MinMax} (h : applyDelta (d, mm) dl = .ok st2) :
    ∃ s, dictGet d dl.1 = some s ∧
      st2 = (dictSet d dl.1
          (if dl.2.2 then insert dl.2.1 s else s.erase dl.2.1),
        ⟨if dl.1 < mm.max then dl.1 else mm.max,
         if dl.2.1 > mm.min then dl.2.1 else mm.min⟩) := by
  unfold applyDelta at h
  cases h1 : rowSet (d, mm).1 dl.1 <;> rw [h1] at h
  · simp at h
  rename_i s
  simp only [] at h
  refine ⟨s, rowSet_ok_iff.mp h1, ?_⟩
  injection h with h2
  exact h2.symm

theorem applyDeltas_bounds :
    ∀ (ds : List Delta) (d : Dict) (mm : MinMax) (st2 : Dict × MinMax),
      applyDeltas ds (d, mm) = .ok st2 →
      st2.2.max = (ds.map (fun dl => dl.1)).foldl min mm.max ∧
      st2.2.min = (ds.map (fun dl => dl.2.1)).foldl max mm.min := by
  intro ds
  induction ds with
  | nil =>
    intro d mm st2 h
    unfold applyDeltas at h
    injection h with h2
    subst h2
    simp
  | cons dl ds ih =>
    intro d mm st2 h
    unfold applyDeltas at h
    cases happ : applyDelta (d, mm) dl <;> rw [happ] at h
    · simp at h
    rename_i st1
    simp only [] at h
    obtain ⟨s, hs, rfl⟩ := applyDelta_ok_elim happ
    have hrec := ih _ _ _ h
    constructor
    · rw [hrec.1]
      simp only [List.map_cons, List.foldl_cons]
      congr 1
      rw [min_def]
      split_ifs <;> omega
    · rw [hrec.2]
      simp only [List.map_cons, List.foldl_cons]
      congr 1
      rw [max_def]
      split_ifs <;> omega

theorem applyDeltas_get_eq :
    ∀ (ds : List Delta) (d : Dict) (mm : MinMax) (st2 : Dict × MinMax),
      applyDeltas ds (d, mm) = .ok st2 → ∀ k : ℤ,
      (∀ dl ∈ ds, dl.1 ≠ k) → dictGet st2.1 k = dictGet d k := by
  intro ds
  induction ds with
  | nil =>
    intro d mm st2 h k _
    unfold applyDeltas at h
    injection h with h2
    subst h2
    rfl
  | cons dl ds ih =>
    intro d mm st2 h k hk
    unfold applyDeltas at h
    cases happ : applyDelta (d, mm) dl <;> rw [happ] at h
    · simp at h
    rename_i st1
    simp only [] at h
    obtain ⟨s, hs, rfl⟩ := applyDelta_ok_elim happ
    have hrec := ih _ _ _ h k
      (fun dl2 hdl2 => hk dl2 (List.mem_cons_of_mem _ hdl2))
    rw [hrec, dictGet_dictSet,
      if_neg (hk dl (List.mem_cons_self _ _))]

/-! ### Resize lemmas -/

theorem expandTop_ok_of_empty {d : Dict} {h : ℤ} {fu : ℕ} {out : Dict × ℤ}
    (h0 : dictGet d 0 = some ∅) (h1 : dictGet d 1 = some ∅)
    (hex : expandTop fu d h = .ok out) : out = (d, h) := by
  cases fu with
  | zero => simp [expandTop] at hex
  | succ fu =>
    unfold expandTop at hex
    have hr : intRange 0 EDGE_BUF_SIZE = [0, 1] := by rfl
    rw [hr] at hex
    have ha : anyLive d [0, 1] = .ok false := by
      simp [anyLive, rowSet, h0, h1]
    rw [ha] at hex
    simp only [] at hex
    injection hex with h2
    exact h2.symm

theorem expandBottom_ok_of_empty {d : Dict} {h : ℤ} {fu : ℕ} {out : Dict × ℤ}
    (hm1 : dictGet d (h - 1) = some ∅) (hm2 : dictGet d (h - 2) = some ∅)
    (hex : expandBottom fu d h = .ok out) : out = (d, h) := by
  cases fu with
  | zero => simp [expandBottom] at hex
  | succ fu =>
    unfold expandBottom at hex
    have hr : (intRange 1 (EDGE_BUF_SIZE + 1)).map (fun n => h - n)
        = [h - 1, h - 2] := by
      have : intRange 1 (EDGE_BUF_SIZE + 1) = [1, 2] := by rfl
      rw [this]
      rfl
    rw [hr] at hex
    have ha : anyLive d [h - 1, h - 2] = .ok false := by
      simp [anyLive, rowSet, hm1, hm2]
    rw [ha] at hex
    simp only [] at hex
    injection hex with h2
    exact h2.symm

theorem shrinkTop_ok_le :
    ∀ (fu : ℕ) (d : Dict) (h : ℤ) (d2 : Dict) (h2 : ℤ),
      shrinkTop fu d h = .ok (d2, h2) → h2 ≤ h := by
  intro fu
  induction fu with
  | zero =>
    intro d h d2 h2 hh
    simp [shrinkTop] at hh
  | succ fu ih =>
    intro d h d2 h2 hh
    unfold shrinkTop at hh
    cases h1 : rowSet d EDGE_BUF_SIZE <;> rw [h1] at hh
    · simp at hh
    rename_i s
    simp only [] at hh
    by_cases hs : s = ∅
    · rw [if_pos hs] at hh
      cases hp : dictPop d 0 <;> rw [hp] at hh
      · simp at hh
      rename_i d1
      simp only [] at hh
      cases hsh : shiftDown d1 (intRange 1 h) <;> rw [hsh] at hh
      · simp at hh
      rename_i d1'
      simp only [] at hh
      have := ih _ _ _ _ hh
      omega
    · rw [if_neg hs] at hh
      injection hh with h4
      have h5 := congrArg Prod.snd h4
      simp at h5
      omega

theorem shrinkBottom_ok_le :
    ∀ (fu : ℕ) (d : Dict) (h : ℤ) (d2 : Dict) (h2 : ℤ),
      shrinkBottom fu d h = .ok (d2, h2) → h2 ≤ h := by
  intro fu
  induction fu with
  | zero =>
    intro d h d2 h2 hh
    simp [shrinkBottom] at hh
  | succ fu ih =>
    intro d h d2 h2 hh
    unfold shrinkBottom at hh
    cases h1 : rowSet d (h - EDGE_BUF_SIZE + 1) <;> rw [h1] at hh
    · simp at hh
    rename_i s
    simp only [] at hh
    by_cases hs : s = ∅
    · rw [if_pos hs] at hh
      cases hp : dictPop d (h - 1) <;> rw [hp] at hh
      · simp at hh
      rename_i d1
      simp only [] at hh
      have := ih _ _ _ _ hh
      omega
    · rw [if_neg hs] at hh
      injection hh with h4
      have h5 := congrArg Prod.snd h4
      simp at h5
      omega

/-! ### Whole-step decompositions and the delta characterization -/

theorem computeDeltas_mem {b : LifeBoard} {ds : List Delta}
    (hok : computeDeltas b = .ok ds) (r c : ℤ) (a : Bool) :
    ((r, c, a) ∈ ds) ↔
      (1 ≤ r ∧ r ≤ b.height - 2) ∧
      (b.min_max.max - 1 ≤ c ∧ c ≤ b.min_max.min + 1) ∧
      ((a = true ∧ liveB b.board r c = false ∧ nbrCount b.board r c = 3) ∨
       (a = false ∧ liveB b.board r c = true ∧ nbrCount b.board r c ≠ 2 ∧
         nbrCount b.board r c ≠ 3)) := by
  unfold computeDeltas at hok
  rw [rowsDeltas_ok_mem hok (r, c, a)]
  constructor
  · rintro ⟨r2, hr2, c2, hc2, hcd⟩
    obtain ⟨ab, m, bl, hg1, hg2, hg3⟩ := cellDelta_ok_elim hcd
    rw [cellDelta_of_present hg1 hg2 hg3] at hcd
    injection hcd with h4
    obtain ⟨rfl, rfl, hcond⟩ := pureCellDelta_some_elim h4
    have hr' := mem_intRange.mp hr2
    have hc' := mem_intRange.mp hc2
    exact ⟨⟨hr'.1, by omega⟩, ⟨by omega, by omega⟩, hcond⟩
  · rintro ⟨⟨hr1, hr2⟩, ⟨hc1, hc2⟩, hcond⟩
    have hrm : r ∈ intRange 1 (b.height - 1) := mem_intRange.mpr ⟨hr1, by omega⟩
    have hcm : c ∈ intRange (b.min_max.max - 1) (b.min_max.min + 2) :=
      mem_intRange.mpr ⟨by omega, by omega⟩
    refine ⟨r, hrm, c, hcm, ?_⟩
    obtain ⟨ds2, hds2⟩ := rowsDeltas_ok_row hok hrm
    obtain ⟨o, ho⟩ := rowDeltas_ok_cell hds2 hcm
    obtain ⟨ab, m, bl, hg1, hg2, hg3⟩ := cellDelta_ok_elim ho
    rw [cellDelta_of_present hg1 hg2 hg3]
    rcases hcond with ⟨rfl, h1, h2⟩ | ⟨rfl, h1, h2, h3⟩
    · rw [pureCellDelta_birth h1 h2]
    · rw [pureCellDelta_death h1 h2 h3]

theorem compute_ok_elim {b b' : LifeBoard}
    (h : compute_next_generation b = .ok b') :
    ∃ ds d2 mm2 d3 h3,
      computeDeltas b = .ok ds ∧
      applyDeltas ds (b.board, b.min_max) = .ok (d2, mm2) ∧
      resize_board d2 b.height = .ok (d3, h3) ∧
      b' = ⟨d3, h3, mm2⟩ := by
  unfold compute_next_generation at h
  cases h1 : computeDeltas b <;> rw [h1] at h
  · simp at h
  rename_i ds
  simp only [] at h
  cases h2 : applyDeltas ds (b.board, b.min_max) <;> rw [h2] at h
  · simp at h
  rename_i st2
  obtain ⟨d2, mm2⟩ := st2
  simp only [] at h
  cases h3 : resize_board d2 b.height <;> rw [h3] at h
  · simp at h
  rename_i p
  obtain ⟨d3, h3'⟩ := p
  simp only [] at h
  injection h with h4
  exact ⟨ds, d2, mm2, d3, h3', rfl, h2, h3, h4.symm⟩

theorem resize_ok_elim {d : Dict} {h : ℤ} {out : Dict × ℤ}
    (hr : resize_board d h = .ok out) :
    ∃ p1 p2 p3,
      expandTop (resizeFuel d h) d h = .ok p1 ∧
      expandBottom (resizeFuel p1.1 p1.2) p1.1 p1.2 = .ok p2 ∧
      shrinkTop (resizeFuel p2.1 p2.2) p2.1 p2.2 = .ok p3 ∧
      shrinkBottom (resizeFuel p3.1 p3.2) p3.1 p3.2 = .ok out := by
  unfold resize_board at hr
  cases h1 : expandTop (resizeFuel d h) d h <;> rw [h1] at hr
  · simp at hr
  rename_i p1
  obtain ⟨d1, ht1⟩ := p1
  simp only [] at hr
  cases h2 : expandBottom (resizeFuel d1 ht1) d1 ht1 <;> rw [h2] at hr
  · simp at hr
  rename_i p2
  obtain ⟨d2, ht2⟩ := p2
  simp only [] at hr
  cases h3 : shrinkTop (resizeFuel d2 ht2) d2 ht2 <;> rw [h3] at hr
  · simp at hr
  rename_i p3
  obtain ⟨d3, ht3⟩ := p3
  simp only [] at hr
  exact ⟨(d1, ht1), (d2, ht2), (d3, ht3), rfl, h2, h3, hr⟩

/-! ### Confinement lemmas for the height bound -/

theorem nbrCount_pos_live {d : Dict} {r c : ℤ} (h : nbrCount d r c ≠ 0) :
    ∃ r2 c2 : ℤ, r - 1 ≤ r2 ∧ r2 ≤ r + 1 ∧ liveB d r2 c2 = true := by
  by_contra hno
  push_neg at hno
  apply h
  unfold nbrCount
  have e1 : liveB d (r - 1) (c - 1) = false :=
    Bool.eq_false_iff.mpr (hno (r - 1) (c - 1) (by omega) (by omega))
  have e2 : liveB d (r - 1) c = false :=
    Bool.eq_false_iff.mpr (hno (r - 1) c (by omega) (by omega))
  have e3 : liveB d (r - 1) (c + 1) = false :=
    Bool.eq_false_iff.mpr (hno (r - 1) (c + 1) (by omega) (by omega))
  have e4 : liveB d r (c - 1) = false :=
    Bool.eq_false_iff.mpr (hno r (c - 1) (by omega) (by omega))
  have e5 : liveB d r (c + 1) = false :=
    Bool.eq_false_iff.mpr (hno r (c + 1) (by omega) (by omega))
  have e6 : liveB d (r + 1) (c - 1) = false :=
    Bool.eq_false_iff.mpr (hno (r + 1) (c - 1) (by omega) (by omega))
  have e7 : liveB d (r + 1) c = false :=
    Bool.eq_false_iff.mpr (hno (r + 1) c (by omega) (by omega))
  have e8 : liveB d (r + 1) (c + 1) = false :=
    Bool.eq_false_iff.mpr (hno (r + 1) (c + 1) (by omega) (by omega))
  simp [e1, e2, e3, e4, e5, e6, e7, e8]

theorem liveConfined_bounds {b : LifeBoard} (hconf : liveConfined b = true)
    {r c : ℤ} (hl : liveB b.board r c = true) :
    EDGE_BUF_SIZE + 1 ≤ r ∧ r ≤ b.height - EDGE_BUF_SIZE - 2 := by
  obtain ⟨s, hg, hc⟩ := liveB_true_elim hl
  have hmem := dictGet_mem hg
  unfold liveConfined at hconf
  rw [List.all_eq_true] at hconf
  have hp := hconf (r, s) hmem
  rw [decide_eq_true_eq] at hp
  rcases hp with hs | hb
  · subst hs
    simp at hc
  · exact hb

theorem confined_row_empty {b : LifeBoard} (hconf : liveConfined b = true)
    {k : ℤ} (hk : k < EDGE_BUF_SIZE + 1 ∨ k > b.height - EDGE_BUF_SIZE - 2)
    {s : Row} (hg : dictGet b.board k = some s) : s = ∅ := by
  by_contra hs
  obtain ⟨c, hc⟩ := Finset.nonempty_iff_ne_empty.mpr hs
  have hl : liveB b.board k c = true := by
    unfold liveB
    rw [hg]
    simp [hc]
  have hb := liveConfined_bounds hconf hl
  rcases hk with hk | hk <;> omega

theorem deltas_rows_confined {b : LifeBoard} {ds : List Delta}
    (hconf : liveConfined b = true) (hok : computeDeltas b = .ok ds) :
    ∀ dl ∈ ds, 2 ≤ dl.1 ∧ dl.1 ≤ b.height - 3 := by
  intro dl hdl
  obtain ⟨r, c, a⟩ := dl
  rw [computeDeltas_mem hok r c a] at hdl
  obtain ⟨⟨hr1, hr2⟩, _, hcond⟩ := hdl
  have hE : EDGE_BUF_SIZE = 2 := rfl
  rcases hcond with ⟨_, _, hn3⟩ | ⟨_, hlive, _, _⟩
  · have hpos : nbrCount b.board r c ≠ 0 := by omega
    obtain ⟨r2, c2, ha, hb2, hl2⟩ := nbrCount_pos_live hpos
    have hbnd := liveConfined_bounds hconf hl2
    constructor <;> omega
  · have hbnd := liveConfined_bounds hconf hlive
    constructor <;> omega

/-! ### Expansion loops probe the buffer rows before anything else -/

theorem expandTop_ok_row0 {fu : ℕ} {d : Dict} {h : ℤ} {out : Dict × ℤ}
    (hex : expandTop fu d h = .ok out) : ∃ s, dictGet d 0 = some s := by
  cases fu with
  | zero => simp [expandTop] at hex
  | succ fu =>
    unfold expandTop at hex
    cases hg : dictGet d 0
    · exfalso
      have ha : anyLive d (intRange 0 EDGE_BUF_SIZE) = .error (.keyError 0) := by
        rw [(rfl : intRange 0 EDGE_BUF_SIZE = [0, 1])]
        simp [anyLive, rowSet, hg]
      rw [ha] at hex
      simp at hex
    · exact ⟨_, rfl⟩

theorem expandTop_ok_row1 {fu : ℕ} {d : Dict} {h : ℤ} {out : Dict × ℤ}
    (h0 : dictGet d 0 = some ∅) (hex : expandTop fu d h = .ok out) :
    ∃ s, dictGet d 1 = some s := by
  cases fu with
  | zero => simp [expandTop] at hex
  | succ fu =>
    unfold expandTop at hex
    cases hg : dictGet d 1
    · exfalso
      have ha : anyLive d (intRange 0 EDGE_BUF_SIZE) = .error (.keyError 1) := by
        rw [(rfl : intRange 0 EDGE_BUF_SIZE = [0, 1])]
        simp [anyLive, rowSet, h0, hg]
      rw [ha] at hex
      simp at hex
    · exact ⟨_, rfl⟩

theorem expandBottom_ok_rowm1 {fu : ℕ} {d : Dict} {h : ℤ} {out : Dict × ℤ}
    (hex : expandBottom fu d h = .ok out) : ∃ s, dictGet d (h - 1) = some s := by
  cases fu with
  | zero => simp [expandBottom] at hex
  | succ fu =>
    unfold expandBottom at hex
    cases hg : dictGet d (h - 1)
    · exfalso
      have ha : anyLive d ((intRange 1 (EDGE_BUF_SIZE + 1)).map (fun n => h - n))
          = .error (.keyError (h - 1)) := by
        rw [(rfl : intRange 1 (EDGE_BUF_SIZE + 1) = [1, 2])]
        simp [anyLive, rowSet, hg]
      rw [ha] at hex
      simp at hex
    · exact ⟨_, rfl⟩

theorem expandBottom_ok_rowm2 {fu : ℕ} {d : Dict} {h : ℤ} {out : Dict × ℤ}
    (hm1 : dictGet d (h - 1) = some ∅) (hex : expandBottom fu d h = .ok out) :
    ∃ s, dictGet d (h - 2) = some s := by
  cases fu with
  | zero => simp [expandBottom] at hex
  | succ fu =>
    unfold expandBottom at hex
    cases hg : dictGet d (h - 2)
    · exfalso
      have ha : anyLive d ((intRange 1 (EDGE_BUF_SIZE + 1)).map (fun n => h - n))
          = .error (.keyError (h - 2)) := by
        rw [(rfl : intRange 1 (EDGE_BUF_SIZE + 1) = [1, 2])]
        simp [anyLive, rowSet, hm1, hg]
      rw [ha] at hex
      simp at hex
    · exact ⟨_, rfl⟩

/-! ### The key-contiguity invariant under create and toggle -/

/-- Row keys are exactly the contiguous range `[0, height)` and `height`
counts them. -/
def keysContiguous (b : LifeBoard) : Prop :=
  dictKeys b.board = intRange 0 b.height ∧
    b.height = ((dictKeys b.board).length : ℤ)

theorem create_keys (h : ℤ) : dictKeys (create h).board = intRange 0 h := by
  unfold create dictKeys
  rw [finalize_board, List.map_map]
  have hc : (Prod.fst ∘ fun n : ℤ => (n, (∅ : Row))) = id := rfl
  rw [hc, List.map_id]

theorem create_height (h : ℤ) :
    (create h).height = ((intRange 0 h).length : ℤ) := by
  unfold create
  rw [finalize_height]
  simp

theorem intRange_zero_length (h : ℤ) :
    intRange 0 (((intRange 0 h).length : ℕ) : ℤ) = intRange 0 h := by
  unfold intRange
  simp only [List.length_map, List.length_range]
  congr 2

theorem create_contiguous (h : ℤ) : keysContiguous (create h) := by
  unfold keysContiguous
  refine ⟨?_, ?_⟩
  · rw [create_keys, create_height, intRange_zero_length]
  · rw [create_height, create_keys]

theorem toggle_preserves {b b2 : LifeBoard} {r c : ℤ} {a : Bool}
    (hok : toggle b r c a = .ok b2) (hinv : keysContiguous b) :
    keysContiguous b2 := by
  unfold toggle at hok
  by_cases hr : 0 ≤ r ∧ r < b.height
  · rw [if_pos hr] at hok
    cases hg : dictGet b.board r <;> rw [hg] at hok
    · exact Except.noConfusion hok
    · rename_i s
      simp only [] at hok
      injection hok with h2
      subst h2
      unfold keysContiguous at hinv ⊢
      rw [dictKeys_dictSet _ hg]
      exact hinv
  · rw [if_neg hr] at hok
    exact Except.noConfusion hok

theorem applyToggles_preserves :
    ∀ (ops : List (ℤ × ℤ × Bool)) (b b2 : LifeBoard),
      applyToggles ops b = .ok b2 → keysContiguous b → keysContiguous b2 := by
  intro ops
  induction ops with
  | nil =>
    intro b b2 h hinv
    unfold applyToggles at h
    injection h with h2
    subst h2
    exact hinv
  | cons op ops ih =>
    intro b b2 h hinv
    obtain ⟨r, c, a⟩ := op
    unfold applyToggles at h
    cases ht : toggle b r c a <;> rw [ht] at h
    · simp at h
    rename_i b1
    simp only [] at h
    exact ih b1 b2 h (toggle_preserves ht hinv)

/-! ### Claim C1 -/

/-- C1: REFUTED (code bug).  After `resize_board` on a height-7 board with
its only live cell at row 2 — two empty buffer rows above, four empty rows
below — the board ends at height 3 with the LIVE row as its bottom row:
the shrink-bottom loop checks `self[height - EDGE_BUF_SIZE + 1]` =
`self[height - 1]` and pops while the LAST row is empty, deleting the
whole bottom buffer, contrary to the claim (and to the function's own
docstring, which promises an empty buffer on each side). -/
theorem C1_resize_deletes_bottom_buffer :
    resize_board c1Dict 7 = .ok ([(0, ∅), (1, ∅), (2, {0})], 3) ∧
    liveB [(0, ∅), (1, ∅), (2, {0})] 2 0 = true := by
  decide

/-! ### Claim C2 -/

/-- C2: CONFIRMED.  The evaluation phase produces a delta `(r, c, a)`
exactly when `r` lies in `[1, height - 2]`, `c` lies in
`[min_max.max - 1, min_max.min + 1]` (left bound − 1 to right bound + 1),
and either the cell is dead with exactly 3 live neighbours (a birth,
`a = true`) or the cell is alive with a neighbour count other than 2 and
3 (a death, `a = false`); no other cell contributes a delta. -/
theorem C2_evaluation_deltas_exact (b : LifeBoard) (ds : List Delta)
    (hok : computeDeltas b = .ok ds) (r c : ℤ) (a : Bool) :
    ((r, c, a) ∈ ds) ↔
      (1 ≤ r ∧ r ≤ b.height - 2) ∧
      (b.min_max.max - 1 ≤ c ∧ c ≤ b.min_max.min + 1) ∧
      ((a = true ∧ liveB b.board r c = false ∧ nbrCount b.board r c = 3) ∨
       (a = false ∧ liveB b.board r c = true ∧ nbrCount b.board r c ≠ 2 ∧
         nbrCount b.board r c ≠ 3)) :=
  computeDeltas_mem hok r c a

/-- Witness for C2 at the height-5 board with one live cell at (2, 0):
its death delta is characterized by the theorem. -/
theorem C2_evaluation_deltas_exact_witness :
    computeDeltas c5Board = .ok [((2 : ℤ), (0 : ℤ), false)] ∧
    (((2 : ℤ), (0 : ℤ), false) ∈ ([((2 : ℤ), (0 : ℤ), false)] : List Delta) ↔
      (1 ≤ (2 : ℤ) ∧ (2 : ℤ) ≤ c5Board.height - 2) ∧
      (c5Board.min_max.max - 1 ≤ (0 : ℤ) ∧
        (0 : ℤ) ≤ c5Board.min_max.min + 1) ∧
      ((false = true ∧ liveB c5Board.board 2 0 = false ∧
          nbrCount c5Board.board 2 0 = 3) ∨
       (false = false ∧ liveB c5Board.board 2 0 = true ∧
          nbrCount c5Board.board 2 0 ≠ 2 ∧ nbrCount c5Board.board 2 0 ≠ 3))) :=
  ⟨by decide,
    C2_evaluation_deltas_exact c5Board [((2 : ℤ), (0 : ℤ), false)]
      (by decide) 2 0 false⟩

/-! ### Claim C3 -/

/-- C3: REFUTED (code bug).  `save` pickles `repr(board)` — a string —
while loading feeds the unpickled value straight to `dict.__init__`;
a nonempty string is an update sequence of 1-character elements, so the
load raises ValueError and no board is produced.  The round trip fails
for the board built by `create 5` followed by `toggle(1, 1, True)`. -/
theorem C3_roundtrip_raises_value_error :
    applyToggles [((1 : ℤ), (1 : ℤ), true)] (create 5) = .ok c3b ∧
    load (save c3b) = .error .valueError := by
  decide

/-! ### Claim C4 -/

/-- C4: counterexample.  Advancing the confined block board succeeds, but
the resulting dict keys are `[1, 2, 3, 8, 0]` while `height` is 4: the
shrink-top shift never deletes the old last key, so a stale key 8 remains
and the keys are neither the contiguous range `[0, height)` nor `height`
many. -/
theorem C4_advance_leaves_stale_keys :
    compute_next_generation blockB = .ok blockOutB ∧
    ¬(dictKeys blockOutB.board = intRange 0 blockOutB.height ∧
      blockOutB.height = ((dictKeys blockOutB.board).length : ℤ)) := by
  decide

/-- C4 (amended): after construction via `create(height)` and any
sequence of successful toggles the row keys are exactly the contiguous
range `[0, height)` and `height` counts them; `advance` does NOT preserve
this (see the counterexample). -/
theorem C4_create_toggle_keys_contiguous (h : ℤ)
    (ops : List (ℤ × ℤ × Bool)) (b : LifeBoard)
    (hok : applyToggles ops (create h) = .ok b) :
    dictKeys b.board = intRange 0 b.height ∧
    b.height = ((dictKeys b.board).length : ℤ) :=
  applyToggles_preserves ops (create h) b hok (create_contiguous h)

/-- Witness for the amended C4 at `create 3` toggled at (1, 1). -/
theorem C4_create_toggle_keys_contiguous_witness :
    applyToggles [((1 : ℤ), (1 : ℤ), true)] (create 3) = .ok c4wB ∧
    (dictKeys c4wB.board = intRange 0 c4wB.height ∧
     c4wB.height = ((dictKeys c4wB.board).length : ℤ)) :=
  ⟨by decide,
    C4_create_toggle_keys_contiguous 3 [((1 : ℤ), (1 : ℤ), true)] c4wB
      (by decide)⟩

/-! ### Claim C5 -/

/-- C5: REFUTED (code bug).  On the height-5 board whose only live cell
is at (2, 0), the evaluation phase correctly produces the death delta and
the apply phase removes the cell, but the unconditional `resize_board`
then shrinks the now-empty board until `self.pop(0)` hits a missing key:
`advance` raises KeyError(0) instead of returning an empty board. -/
theorem C5_isolated_cell_advance_raises :
    compute_next_generation c5Board = .error (.keyError 0) := by
  decide

/-! ### Claim C6 -/

/-- C6: counterexample.  The block board has all live cells at least
3 rows from both edges, yet one advance changes `height` from 9 to 4:
the shrink phases trim the top rows down to a 2-row buffer and delete the
whole bottom region below the live rows. -/
theorem C6_advance_shrinks_height :
    liveConfined blockB = true ∧
    compute_next_generation blockB = .ok blockOutB ∧
    blockOutB.height ≠ blockB.height := by
  decide

/-- C6 (amended): when every live cell is at least `EDGE_BUF_SIZE + 1`
rows from row 0 and from row `height - 1`, a successful advance never
INCREASES the height: births stay within one row of existing live rows,
so both expansion loops are no-ops, and the shrink loops only decrease
the height. -/
theorem C6_height_never_increases (b b' : LifeBoard)
    (hconf : liveConfined b = true)
    (hok : compute_next_generation b = .ok b') :
    b'.height ≤ b.height := by
  obtain ⟨ds, d2, mm2, d3, h3, hds, happ, hres, rfl⟩ := compute_ok_elim hok
  have hrows := deltas_rows_confined hconf hds
  have hE : EDGE_BUF_SIZE = 2 := rfl
  have hget : ∀ k : ℤ, (∀ dl ∈ ds, dl.1 ≠ k) →
      dictGet d2 k = dictGet b.board k :=
    fun k hk => applyDeltas_get_eq ds b.board b.min_max (d2, mm2) happ k hk
  have hg0 : dictGet d2 0 = dictGet b.board 0 :=
    hget 0 (fun dl hdl => by have := hrows dl hdl; omega)
  have hg1 : dictGet d2 1 = dictGet b.board 1 :=
    hget 1 (fun dl hdl => by have := hrows dl hdl; omega)
  have hgm1 : dictGet d2 (b.height - 1) = dictGet b.board (b.height - 1) :=
    hget _ (fun dl hdl => by have := hrows dl hdl; omega)
  have hgm2 : dictGet d2 (b.height - 2) = dictGet b.board (b.height - 2) :=
    hget _ (fun dl hdl => by have := hrows dl hdl; omega)
  obtain ⟨p1, p2, p3, het, heb, hst, hsb⟩ := resize_ok_elim hres
  obtain ⟨s0, hs0⟩ := expandTop_ok_row0 het
  have hs0e : s0 = ∅ :=
    confined_row_empty hconf (Or.inl (by omega)) (hg0 ▸ hs0)
  subst hs0e
  obtain ⟨s1, hs1⟩ := expandTop_ok_row1 hs0 het
  have hs1e : s1 = ∅ :=
    confined_row_empty hconf (Or.inl (by omega)) (hg1 ▸ hs1)
  subst hs1e
  have hp1 : p1 = (d2, b.height) := expandTop_ok_of_empty hs0 hs1 het
  subst hp1
  dsimp only at heb hst
  obtain ⟨sm1, hsm1⟩ := expandBottom_ok_rowm1 heb
  have hsm1e : sm1 = ∅ :=
    confined_row_empty hconf (Or.inr (by omega)) (hgm1 ▸ hsm1)
  subst hsm1e
  obtain ⟨sm2, hsm2⟩ := expandBottom_ok_rowm2 hsm1 heb
  have hsm2e : sm2 = ∅ :=
    confined_row_empty hconf (Or.inr (by omega)) (hgm2 ▸ hsm2)
  subst hsm2e
  have hp2 : p2 = (d2, b.height) := expandBottom_ok_of_empty hsm1 hsm2 heb
  subst hp2
  dsimp only at hst hsb
  obtain ⟨d3', ht3⟩ := p3
  have hle1 : ht3 ≤ b.height := shrinkTop_ok_le _ _ _ _ _ hst
  dsimp only at hsb
  have hle2 : h3 ≤ ht3 := shrinkBottom_ok_le _ _ _ _ _ hsb
  show h3 ≤ b.height
  omega

/-- Witness for the amended C6 at the block board: ok result with height
4 ≤ 9. -/
theorem C6_height_never_increases_witness :
    liveConfined blockB = true ∧
    compute_next_generation blockB = .ok blockOutB ∧
    blockOutB.height ≤ blockB.height :=
  ⟨by decide, by decide,
    C6_height_never_increases blockB blockOutB (by decide) (by decide)⟩

/-! ### Claim C7 -/

/-- C7: counterexample.  Loading the gapped mapping with keys {0, 2}
succeeds silently — there is no key validation and no MalformedBoardError
anywhere in the source — producing a board with the gapped dict,
height 2, and bounds 5/5 from the one live cell. -/
theorem C7_gapped_mapping_loads_silently :
    load (PValue.mapping gapped) = .ok ⟨gapped, 2, ⟨5, 5⟩⟩ := by
  decide

/-- C7 (amended): constructing a board from ANY persisted mapping (with
the distinct keys a pickled dict guarantees) succeeds with no validation:
the mapping is stored as-is and `height` becomes the number of keys, even
when the keys are not a contiguous range. -/
theorem C7_load_performs_no_validation (m : Dict)
    (hnd : (dictKeys m).Nodup) :
    ∃ b, load (PValue.mapping m) = .ok b ∧ b.board = m ∧
      b.height = (m.length : ℤ) :=
  ⟨finalize m, rfl, rfl, finalize_height m⟩

/-- Witness for the amended C7 at the gapped mapping. -/
theorem C7_load_performs_no_validation_witness :
    (dictKeys gapped).Nodup ∧
    ∃ b, load (PValue.mapping gapped) = .ok b ∧ b.board = gapped ∧
      b.height = (gapped.length : ℤ) :=
  ⟨by decide, C7_load_performs_no_validation gapped (by decide)⟩

/-! ### Claim C9 -/

/-- C9: counterexample.  `advance` on the zero-height board is NOT an
error-free no-op: the unconditional resize probes `self[0]` while
checking the top buffer of the empty dict and raises KeyError(0). -/
theorem C9_zero_height_advance_raises :
    compute_next_generation (create 0) = .error (.keyError 0) := by
  decide

/-- C9 (amended): a zero-height board renders zero board lines and its
evaluation phase produces no deltas, but `advance` does not return: the
resize step raises KeyError(0). -/
theorem C9_zero_height_board_behaviour :
    renderLines (create 0) = .ok [] ∧
    computeDeltas (create 0) = .ok [] ∧
    compute_next_generation (create 0) = .error (.keyError 0) := by
  refine ⟨by decide, by decide, by decide⟩

/-! ### Claim C8 -/

/-- C8: counterexample.  For the board whose only live cell is at
(2, 10), the single delta is the DEATH delta (2, 10, false), yet applying
it drags the left bound from 10 down to the delta's ROW index 2; the
claim's birth-only folding would leave the bounds at 10/10. -/
theorem C8_death_delta_moves_bound :
    c8Board.min_max = ⟨10, 10⟩ ∧
    computeDeltas c8Board = .ok [((2 : ℤ), (10 : ℤ), false)] ∧
    applyDeltas [((2 : ℤ), (10 : ℤ), false)] (c8Board.board, c8Board.min_max)
      = .ok (c8AfterDict, ⟨2, 10⟩) ∧
    specBirthBounds [((2 : ℤ), (10 : ℤ), false)] c8Board.min_max = ⟨10, 10⟩ ∧
    ((⟨2, 10⟩ : MinMax) ≠ (⟨10, 10⟩ : MinMax)) := by
  decide

/-- C8 (amended): the apply phase updates the bounds from EVERY delta,
births and deaths alike: afterwards the left bound (`min_max.max`) is the
minimum of its prior value and the ROW indices of all deltas, and the
right bound (`min_max.min`) is the maximum of its prior value and the
COLUMN indices of all deltas. -/
theorem C8_bounds_fold_all_deltas (ds : List Delta) (d : Dict)
    (mm : MinMax) (st2 : Dict × MinMax)
    (hok : applyDeltas ds (d, mm) = .ok st2) :
    st2.2.max = (ds.map (fun dl => dl.1)).foldl min mm.max ∧
    st2.2.min = (ds.map (fun dl => dl.2.1)).foldl max mm.min :=
  applyDeltas_bounds ds d mm st2 hok

/-- Witness for the amended C8 at the death-delta board. -/
theorem C8_bounds_fold_all_deltas_witness :
    applyDeltas [((2 : ℤ), (10 : ℤ), false)]
        (c8Board.board, c8Board.min_max) = .ok (c8AfterDict, ⟨2, 10⟩) ∧
    ((c8AfterDict, (⟨2, 10⟩ : MinMax)).2.max =
        ([((2 : ℤ), (10 : ℤ), false)].map (fun dl => dl.1)).foldl min
          c8Board.min_max.max ∧
     (c8AfterDict, (⟨2, 10⟩ : MinMax)).2.min =
        ([((2 : ℤ), (10 : ℤ), false)].map (fun dl => dl.2.1)).foldl max
          c8Board.min_max.min) :=
  ⟨by decide,
    C8_bounds_fold_all_deltas [((2 : ℤ), (10 : ℤ), false)] c8Board.board
      c8Board.min_max (c8AfterDict, ⟨2, 10⟩) (by decide)⟩

/-! ### Claim C10 -/

/-- C10: CONFIRMED.  Across every advance that returns, the left bound
never increases and the right bound never decreases: the apply phase only
folds `min` into `min_max.max` and `max` into `min_max.min`, and
`resize_board` — which operates on the dict and `height` alone — never
touches the bounds. -/
theorem C10_bounds_monotone (b b' : LifeBoard)
    (hok : compute_next_generation b = .ok b') :
    b'.min_max.max ≤ b.min_max.max ∧ b.min_max.min ≤ b'.min_max.min := by
  obtain ⟨ds, d2, mm2, d3, h3, hds, happ, hres, rfl⟩ := compute_ok_elim hok
  have hb := applyDeltas_bounds ds b.board b.min_max (d2, mm2) happ
  constructor
  · show mm2.max ≤ b.min_max.max
    have h1 : mm2.max = (ds.map (fun dl => dl.1)).foldl min b.min_max.max :=
      hb.1
    rw [h1]
    exact foldl_min_le _ _
  · show b.min_max.min ≤ mm2.min
    have h1 : mm2.min = (ds.map (fun dl => dl.2.1)).foldl max b.min_max.min :=
      hb.2
    rw [h1]
    exact le_foldl_max _ _

/-- Witness for C10 at the block board: bounds 0/1 are unchanged by the
advance. -/
theorem C10_bounds_monotone_witness :
    compute_next_generation blockB = .ok blockOutB ∧
    (blockOutB.min_max.max ≤ blockB.min_max.max ∧
     blockB.min_max.min ≤ blockOutB.min_max.min) :=
  ⟨by decide, C10_bounds_monotone blockB blockOutB (by decide)⟩

end Life
